import Mathlib

/-
Verification development for the MyTT-style indicator library
(src/MyTT.py) and its orchestrator (src/core/indicators.py).

Modelling conventions:
* A numpy float array is a `List V` with `V := Option ℚ`; `none` models a
  non-finite value (NaN, and in principle ±inf).  All finite arithmetic is
  exact rational arithmetic.
* `vdiv` returns `none` whenever the denominator is zero.  In IEEE
  semantics x/0 is ±inf for x ≠ 0 and NaN for x = 0; every division in the
  indicators proved below has a nonnegative numerator bounded by the
  denominator, so a zero denominator forces a zero numerator and the
  collapsed case is genuinely NaN (see the comparison lemmas).
* pandas rolling(N) aggregation (default min_periods = N) is `winAgg`:
  output[i] is defined only when i+1 ≥ N and the N-element window holds no
  NaN.
* np.round rounds half to even; `rhe` and `rd3` model it at 3 decimals.
-/

namespace MyTT

/-- Value of a numpy float cell: some rational, or a non-finite value. -/
abbrev V := Option ℚ

/-- Elementwise addition with NaN propagation. -/
def vadd : V → V → V
  | some a, some b => some (a + b)
  | _, _ => none

/-- Elementwise subtraction with NaN propagation. -/
def vsub : V → V → V
  | some a, some b => some (a - b)
  | _, _ => none

/-- Elementwise multiplication with NaN propagation. -/
def vmul : V → V → V
  | some a, some b => some (a * b)
  | _, _ => none

/-- Elementwise division; a zero denominator yields a non-finite value. -/
def vdiv : V → V → V
  | some a, some b => if b = 0 then none else some (a / b)
  | _, _ => none

/-- Model of np.maximum(x, 0): NaN propagates. -/
def vmax0 : V → V
  | some a => some (max a 0)
  | none => none

/-- Model of np.abs with NaN propagation. -/
def vabs : V → V
  | some a => some |a|
  | none => none

/-- Model of the float comparison a > b: any NaN compares false. -/
def vgt : V → V → Bool
  | some a, some b => decide (b < a)
  | _, _ => false

/-- Model of the float comparison x == q against a finite q: NaN compares false. -/
def veqN (x : V) (q : ℚ) : Bool :=
  match x with
  | some a => decide (a = q)
  | none => false

/-- Collects a window into a clean list, failing if any cell is NaN. -/
def allSome : List V → Option (List ℚ)
  | [] => some []
  | none :: _ => none
  | some a :: rest => (allSome rest).map (a :: ·)

/-- Mean of a clean list (sum divided by length). -/
def meanL (L : List ℚ) : ℚ := L.sum / L.length

/-- Maximum of a clean list (0 on the empty list, which never occurs in a full window). -/
def maxL : List ℚ → ℚ
  | [] => 0
  | a :: l => l.foldl max a

/-- Minimum of a clean list (0 on the empty list, which never occurs in a full window). -/
def minL : List ℚ → ℚ
  | [] => 0
  | a :: l => l.foldl min a

/-- Population variance of a clean list: squared deviations summed, divided by the length. -/
def popVar (L : List ℚ) : ℚ := (L.map (fun x => (x - meanL L) ^ 2)).sum / L.length

/-- pandas Series.rolling(N).agg with the default min_periods = N: output[i]
is defined only when i+1 ≥ N and the window S[i+1-N : i+1] holds no NaN. -/
def winAgg (f : List ℚ → ℚ) (S : List V) (N : ℕ) : List V :=
  (List.range S.length).map fun i =>
    if N ≤ i + 1 then (allSome ((S.drop (i + 1 - N)).take N)).map f else none

/-- MA from src/MyTT.py line 14: rolling(N).mean(). -/
def MA (S : List V) (N : ℕ) : List V := winAgg meanL S N

/-- SUM from src/MyTT.py line 29: rolling(N).sum(). -/
def SUM (S : List V) (N : ℕ) : List V := winAgg List.sum S N

/-- HHV from src/MyTT.py line 32: rolling(N).max(). -/
def HHV (S : List V) (N : ℕ) : List V := winAgg maxL S N

/-- LLV from src/MyTT.py line 35: rolling(N).min(). -/
def LLV (S : List V) (N : ℕ) : List V := winAgg minL S N

/-- STD from src/MyTT.py line 23 is rolling(N).std(ddof=0), whose values are
square roots of the population variance; since square roots of rationals are
irrational, STD is modelled by the square of its value, which determines it
(the std value is the unique nonnegative square root).  The population
semantics, denominator N rather than N-1, is fully visible here. -/
def STDvar (S : List V) (N : ℕ) : List V := winAgg popVar S N

/-- REF from src/MyTT.py line 17: shift down by N, NaN-filling the head. -/
def REF (S : List V) (N : ℕ) : List V :=
  (List.replicate N (none : V) ++ S).take S.length

/-- Round half to even, the rounding mode of np.round. -/
def rhe (q : ℚ) : ℤ :=
  let f := ⌊q⌋
  let r := q - f
  if r < 1 / 2 then f
  else if 1 / 2 < r then f + 1
  else if f % 2 = 0 then f else f + 1

/-- RD from src/MyTT.py line 8: np.round to three decimals, half to even. -/
def rd3 (q : ℚ) : ℚ := (rhe (1000 * q) : ℚ) / 1000

/-- RD lifted to float cells. -/
def vrd : V → V
  | some a => some (rd3 a)
  | none => none

/-- Cast of a numpy bool cell to float, as done implicitly by rolling sums. -/
def boolToV (b : Bool) : V := some (if b then 1 else 0)

/-- COUNT from src/MyTT.py line 57: rolling count of true over N bars. -/
def COUNT (B : List Bool) (N : ℕ) : List V := SUM (B.map boolToV) N

/-- CROSS from src/MyTT.py lines 80-82: the trailing 2-bar count of S1 > S2
equals one.  Any NaN rolling count (the first bar) compares false. -/
def CROSS (S1 S2 : List V) : List Bool :=
  (COUNT (List.zipWith vgt S1 S2) 2).map (fun r => veqN r 1)

/-- EVERY from src/MyTT.py lines 60-62: rolling count equals N; a NaN count
compares false. -/
def EVERY (B : List Bool) (N : ℕ) : List Bool :=
  (COUNT B N).map (fun r => veqN r (N : ℚ))

/-- EXIST from src/MyTT.py lines 68-70: rolling count exceeds zero; a NaN
count compares false. -/
def EXIST (B : List Bool) (N : ℕ) : List Bool :=
  (COUNT B N).map (fun r => vgt r (some 0))

/-! Basic lemmas about the rolling-window aggregator. -/

theorem winAgg_length (f : List ℚ → ℚ) (S : List V) (N : ℕ) :
    (winAgg f S N).length = S.length := by
  simp [winAgg]

theorem winAgg_get? (f : List ℚ → ℚ) (S : List V) (N i : ℕ) (h : i < S.length) :
    (winAgg f S N).get? i =
      some (if N ≤ i + 1 then (allSome ((S.drop (i + 1 - N)).take N)).map f
            else none) := by
  rw [winAgg, List.get?_map, List.get?_range h]
  rfl

theorem winAgg_get?_warmup (f : List ℚ → ℚ) (S : List V) (N i : ℕ)
    (h : i < S.length) (hN : i + 1 < N) :
    (winAgg f S N).get? i = some none := by
  rw [winAgg_get? f S N i h, if_neg (by omega)]

theorem allSome_map_some (L : List ℚ) : allSome (L.map some) = some L := by
  induction L with
  | nil => rfl
  | cons a l ih => simp [allSome, ih]

theorem winAgg_get?_clean (f : List ℚ → ℚ) (T : List ℚ) (N i : ℕ)
    (h : i < T.length) (hN : N ≤ i + 1) :
    (winAgg f (T.map some) N).get? i =
      some (some (f ((T.drop (i + 1 - N)).take N))) := by
  rw [winAgg_get? f _ N i (by simpa using h), if_pos hN,
    ← List.map_drop, ← List.map_take, allSome_map_some]
  rfl

theorem window_len {α : Type} (S : List α) (N i : ℕ) (h : i < S.length)
    (hN : N ≤ i + 1) : ((S.drop (i + 1 - N)).take N).length = N := by
  simp only [List.length_take, List.length_drop]
  omega

theorem window_pair {α : Type} (S : List α) (d : α) (i : ℕ) (h1 : 1 ≤ i)
    (h : i < S.length) :
    (S.drop (i + 1 - 2)).take 2 = [S.getD (i - 1) d, S.getD i d] := by
  have e1 : i + 1 - 2 = i - 1 := by omega
  have l1 : i - 1 < S.length := by omega
  have e2 : i - 1 + 1 = i := by omega
  rw [e1, List.drop_eq_getElem_cons l1, e2, List.drop_eq_getElem_cons h,
    List.getD_eq_getElem S d l1, List.getD_eq_getElem S d h]
  rfl

/-- Indicator cast of a boolean to a rational, the value under boolToV. -/
def bInd (b : Bool) : ℚ := if b then 1 else 0

theorem boolToV_eq_some_bInd : boolToV = fun b => some (bInd b) := rfl

theorem veqN_some (a q : ℚ) : veqN (some a) q = decide (a = q) := rfl

theorem bInd_decide (p : Prop) [Decidable p] :
    bInd (decide p) = if p then 1 else 0 := by
  by_cases h : p <;> simp [bInd, h]

/-- Characterization of CROSS on clean inputs: at every index i ≥ 1 the
output is true exactly when exactly one of the two trailing bars satisfies
S1 > S2 — it fires on downward as well as upward crossings. -/
theorem getD_bInd_gtList (T1 T2 : List ℚ) (hlen : T2.length = T1.length)
    (j : ℕ) (hj : j < T1.length) :
    ((List.zipWith (fun a b : ℚ => decide (b < a)) T1 T2).map bInd).getD j 0
      = bInd (decide (T2.getD j 0 < T1.getD j 0)) := by
  have hjt : j < T2.length := by omega
  have hj1 : j < ((List.zipWith (fun a b : ℚ => decide (b < a)) T1 T2).map bInd).length := by
    simp only [List.length_map, List.length_zipWith]
    omega
  rw [List.getD_eq_getElem _ 0 hj1, List.getElem_map, List.getElem_zipWith,
    List.getD_eq_getElem T1 0 hj, List.getD_eq_getElem T2 0 hjt]

theorem cross_getD_iff (T1 T2 : List ℚ) (hlen : T2.length = T1.length)
    (i : ℕ) (h1 : 1 ≤ i) (h : i < T1.length) :
    ((CROSS (T1.map some) (T2.map some)).getD i false = true ↔
      Xor' (T2.getD (i - 1) 0 < T1.getD (i - 1) 0) (T2.getD i 0 < T1.getD i 0)) := by
  have hcb : List.zipWith vgt (T1.map some) (T2.map some)
      = List.zipWith (fun a b : ℚ => decide (b < a)) T1 T2 :=
    List.zipWith_map vgt some some T1 T2
  have hmm : (List.zipWith (fun a b : ℚ => decide (b < a)) T1 T2).map boolToV
      = ((List.zipWith (fun a b : ℚ => decide (b < a)) T1 T2).map bInd).map some := by
    rw [List.map_map, boolToV_eq_some_bInd]
    rfl
  have hil : i < ((List.zipWith (fun a b : ℚ => decide (b < a)) T1 T2).map bInd).length := by
    simp only [List.length_map, List.length_zipWith]
    omega
  have hwin := window_pair ((List.zipWith (fun a b : ℚ => decide (b < a)) T1 T2).map bInd)
    0 i h1 hil
  have hcount : (COUNT (List.zipWith (fun a b : ℚ => decide (b < a)) T1 T2) 2).get? i
      = some (some (bInd (decide (T2.getD (i - 1) 0 < T1.getD (i - 1) 0))
          + (bInd (decide (T2.getD i 0 < T1.getD i 0)) + 0))) := by
    rw [COUNT, SUM, hmm, winAgg_get?_clean List.sum _ 2 i hil (by omega), hwin,
      getD_bInd_gtList T1 T2 hlen (i - 1) (by omega), getD_bInd_gtList T1 T2 hlen i h]
    rfl
  have hc : (CROSS (T1.map some) (T2.map some)).getD i false
      = veqN (some (bInd (decide (T2.getD (i - 1) 0 < T1.getD (i - 1) 0))
          + (bInd (decide (T2.getD i 0 < T1.getD i 0)) + 0))) 1 := by
    rw [CROSS, hcb, List.getD_eq_getD_get?, List.get?_map, hcount]
    rfl
  rw [hc, veqN_some, bInd_decide, bInd_decide]
  generalize T1.getD (i - 1) 0 = x1
  generalize T2.getD (i - 1) 0 = x2
  generalize T1.getD i 0 = y1
  generalize T2.getD i 0 = y2
  by_cases hA : x2 < x1 <;> by_cases hB : y2 < y1
  · rw [if_pos hA, if_pos hB]
    norm_num [Xor', hA, hB]
  · rw [if_pos hA, if_neg hB]
    norm_num [Xor', hA, hB]
  · rw [if_neg hA, if_pos hB]
    norm_num [Xor', hA, hB]
  · rw [if_neg hA, if_neg hB]
    norm_num [Xor', hA, hB]

/-- C2: counterexample.  With S1 = [2, 1] and S2 = [1, 2], at index 1 the
code fires CROSS(S1, S2) although S1 moved from above S2 to below it, so
CROSS is not equivalent to the upward-only condition (S1 ≤ S2 at i−1 and
S1 > S2 at i): the left side of the claimed equivalence is true while the
right side is false. -/
theorem C2_counterexample :
    ¬ (((CROSS [some 2, some 1] [some 1, some 2]).getD 1 false = true) ↔
       ((2 : ℚ) ≤ 1 ∧ (1 : ℚ) > 2)) := by
  have hcross : CROSS [some 2, some 1] [some 1, some 2] = [false, true] := by
    norm_num [CROSS, COUNT, SUM, winAgg, allSome, veqN, vgt, boolToV, List.range_succ]
  rw [hcross]
  norm_num

/-- C2 (amended): for equal-length clean series and any index i ≥ 1,
CROSS(S1, S2)[i] is true iff exactly one of the two bars i−1, i satisfies
S1 > S2, so it fires on downward as well as upward crossings; the
upward-only condition of the original claim holds only as the
sub-case in which the bar satisfying S1 > S2 is bar i. -/
theorem C2_cross_trailing_pair (T1 T2 : List ℚ) (hlen : T2.length = T1.length)
    (i : ℕ) (h1 : 1 ≤ i) (h : i < T1.length) :
    ((CROSS (T1.map some) (T2.map some)).getD i false = true ↔
      Xor' (T2.getD (i - 1) 0 < T1.getD (i - 1) 0) (T2.getD i 0 < T1.getD i 0)) :=
  cross_getD_iff T1 T2 hlen i h1 h

/-- Witness for the amended C2 theorem at S1 = [2, 1], S2 = [1, 2], i = 1. -/
theorem C2_cross_trailing_pair_witness :
    ((CROSS ([(2 : ℚ), 1].map some) ([(1 : ℚ), 2].map some)).getD 1 false = true ↔
      Xor' ([(1 : ℚ), 2].getD 0 0 < [(2 : ℚ), 1].getD 0 0)
           ([(1 : ℚ), 2].getD 1 0 < [(2 : ℚ), 1].getD 1 0)) :=
  C2_cross_trailing_pair [2, 1] [1, 2] rfl 1 (by norm_num) (by norm_num)

/-- C3: counterexample.  With S1 = [2, 1] and S2 = [1, 2], at index 1 both
CROSS(S1, S2) and CROSS(S2, S1) are true simultaneously, refuting mutual
exclusion. -/
theorem C3_counterexample :
    (CROSS [some 2, some 1] [some 1, some 2]).getD 1 false = true ∧
    (CROSS [some 1, some 2] [some 2, some 1]).getD 1 false = true := by
  constructor <;>
    norm_num [CROSS, COUNT, SUM, winAgg, allSome, veqN, vgt, boolToV, List.range_succ]

/-- C3 (amended): CROSS(S1, S2) and CROSS(S2, S1) are not mutually
exclusive; for clean equal-length series they are simultaneously true at
index i ≥ 1 exactly when the two series strictly cross between bars i−1
and i, in either direction. -/
theorem C3_cross_simultaneous_iff (T1 T2 : List ℚ) (hlen : T2.length = T1.length)
    (i : ℕ) (h1 : 1 ≤ i) (h : i < T1.length) :
    (((CROSS (T1.map some) (T2.map some)).getD i false = true ∧
      (CROSS (T2.map some) (T1.map some)).getD i false = true) ↔
      ((T2.getD (i - 1) 0 < T1.getD (i - 1) 0 ∧ T1.getD i 0 < T2.getD i 0) ∨
       (T1.getD (i - 1) 0 < T2.getD (i - 1) 0 ∧ T2.getD i 0 < T1.getD i 0))) := by
  have h' : i < T2.length := by omega
  rw [cross_getD_iff T1 T2 hlen i h1 h, cross_getD_iff T2 T1 hlen.symm i h1 h']
  generalize T1.getD (i - 1) 0 = a
  generalize T2.getD (i - 1) 0 = b
  generalize T1.getD i 0 = c
  generalize T2.getD i 0 = d
  rcases lt_trichotomy b a with hab | hab | hab <;>
    rcases lt_trichotomy d c with hcd | hcd | hcd
  · simp [Xor', hab, hcd, lt_asymm hab, lt_asymm hcd]
  · subst hcd
    simp [Xor', hab, lt_asymm hab, lt_irrefl]
  · simp [Xor', hab, hcd, lt_asymm hab, lt_asymm hcd]
  · subst hab
    simp [Xor', hcd, lt_asymm hcd, lt_irrefl]
  · subst hab
    subst hcd
    simp [Xor', lt_irrefl]
  · subst hab
    simp [Xor', hcd, lt_asymm hcd, lt_irrefl]
  · simp [Xor', hab, hcd, lt_asymm hab, lt_asymm hcd]
  · subst hcd
    simp [Xor', hab, lt_asymm hab, lt_irrefl]
  · simp [Xor', hab, hcd, lt_asymm hab, lt_asymm hcd]

/-- Witness for the amended C3 theorem at S1 = [2, 1], S2 = [1, 2], i = 1. -/
theorem C3_cross_simultaneous_iff_witness :
    (((CROSS ([(2 : ℚ), 1].map some) ([(1 : ℚ), 2].map some)).getD 1 false = true ∧
      (CROSS ([(1 : ℚ), 2].map some) ([(2 : ℚ), 1].map some)).getD 1 false = true) ↔
      (([(1 : ℚ), 2].getD 0 0 < [(2 : ℚ), 1].getD 0 0 ∧
        [(2 : ℚ), 1].getD 1 0 < [(1 : ℚ), 2].getD 1 0) ∨
       ([(2 : ℚ), 1].getD 0 0 < [(1 : ℚ), 2].getD 0 0 ∧
        [(1 : ℚ), 2].getD 1 0 < [(2 : ℚ), 1].getD 1 0))) :=
  C3_cross_simultaneous_iff [2, 1] [1, 2] rfl 1 (by norm_num) (by norm_num)

/-- C10: during the warm-up region i < N−1 the underlying rolling count is
NaN, and the comparisons NaN == N and NaN > 0 both evaluate to false, so
EVERY and EXIST return False (not NaN) there: the combinators are
False-padded although the Layer 0 rolling statistic they are built on is
NaN-padded. -/
theorem C10_every_exist_false_padded (B : List Bool) (N i : ℕ)
    (hi : i + 1 < N) (h : i < B.length) :
    (COUNT B N).get? i = some none ∧
    (EVERY B N).get? i = some false ∧
    (EXIST B N).get? i = some false := by
  have hc : (COUNT B N).get? i = some none :=
    winAgg_get?_warmup List.sum (B.map boolToV) N i (by simpa using h) hi
  refine ⟨hc, ?_, ?_⟩
  · rw [EVERY, List.get?_map, hc]
    rfl
  · rw [EXIST, List.get?_map, hc]
    rfl

/-- Witness for the C10 theorem at B = [true, true, true], N = 3, i = 0. -/
theorem C10_every_exist_false_padded_witness :
    (COUNT [true, true, true] 3).get? 0 = some none ∧
    (EVERY [true, true, true] 3).get? 0 = some false ∧
    (EXIST [true, true, true] 3).get? 0 = some false :=
  C10_every_exist_false_padded [true, true, true] 3 0 (by norm_num) (by norm_num)

theorem meanL_eq_sum_div (w : List ℚ) (N : ℕ) (hw : w.length = N) :
    meanL w = w.sum / (N : ℚ) := by
  rw [meanL, hw]

theorem popVar_eq_explicit (w : List ℚ) (N : ℕ) (hw : w.length = N) :
    popVar w = (w.map (fun x => (x - w.sum / (N : ℚ)) ^ 2)).sum / (N : ℚ) := by
  rw [popVar, meanL, hw]

/-- C8: each Layer 0 rolling statistic of window N preserves the input
length, is NaN exactly on the warm-up indices i < N−1, and on i ≥ N−1
equals the statistic of the window S[i−N+1 : i+1]; the variance under the
standard deviation divides by N (population semantics), not N−1. -/
theorem C8_rolling_statistics (S : List ℚ) (N : ℕ) (hN : 1 ≤ N) :
    ((MA (S.map some) N).length = S.length ∧
     (STDvar (S.map some) N).length = S.length ∧
     (SUM (S.map some) N).length = S.length ∧
     (HHV (S.map some) N).length = S.length ∧
     (LLV (S.map some) N).length = S.length) ∧
    (∀ i, i < S.length →
      (((MA (S.map some) N).get? i = some none ↔ i < N - 1) ∧
       ((STDvar (S.map some) N).get? i = some none ↔ i < N - 1) ∧
       ((SUM (S.map some) N).get? i = some none ↔ i < N - 1) ∧
       ((HHV (S.map some) N).get? i = some none ↔ i < N - 1) ∧
       ((LLV (S.map some) N).get? i = some none ↔ i < N - 1))) ∧
    (∀ i, N - 1 ≤ i → i < S.length →
      (((S.drop (i + 1 - N)).take N).length = N ∧
       (MA (S.map some) N).get? i
         = some (some (((S.drop (i + 1 - N)).take N).sum / (N : ℚ))) ∧
       (STDvar (S.map some) N).get? i
         = some (some ((((S.drop (i + 1 - N)).take N).map
             (fun x => (x - ((S.drop (i + 1 - N)).take N).sum / (N : ℚ)) ^ 2)).sum / (N : ℚ))) ∧
       (SUM (S.map some) N).get? i
         = some (some ((S.drop (i + 1 - N)).take N).sum) ∧
       (HHV (S.map some) N).get? i
         = some (some (maxL ((S.drop (i + 1 - N)).take N))) ∧
       (LLV (S.map some) N).get? i
         = some (some (minL ((S.drop (i + 1 - N)).take N))))) := by
  have hlen : (S.map some).length = S.length := by simp
  refine ⟨⟨?_, ?_, ?_, ?_, ?_⟩, ?_, ?_⟩
  · rw [MA, winAgg_length, hlen]
  · rw [STDvar, winAgg_length, hlen]
  · rw [SUM, winAgg_length, hlen]
  · rw [HHV, winAgg_length, hlen]
  · rw [LLV, winAgg_length, hlen]
  · intro i hi
    by_cases hw : i < N - 1
    · have hw1 : i + 1 < N := by omega
      have hW := fun f => winAgg_get?_warmup f (S.map some) N i (by simpa using hi) hw1
      exact ⟨by rw [MA, hW]; simpa using hw, by rw [STDvar, hW]; simpa using hw,
        by rw [SUM, hW]; simpa using hw, by rw [HHV, hW]; simpa using hw,
        by rw [LLV, hW]; simpa using hw⟩
    · have hN1 : N ≤ i + 1 := by omega
      have hC := fun f => winAgg_get?_clean f S N i hi hN1
      exact ⟨by rw [MA, hC]; simpa using hw, by rw [STDvar, hC]; simpa using hw,
        by rw [SUM, hC]; simpa using hw, by rw [HHV, hC]; simpa using hw,
        by rw [LLV, hC]; simpa using hw⟩
  · intro i hi1 hi
    have hN1 : N ≤ i + 1 := by omega
    have hwl : ((S.drop (i + 1 - N)).take N).length = N := window_len S N i hi hN1
    have hC := fun f => winAgg_get?_clean f S N i hi hN1
    refine ⟨hwl, ?_, ?_, ?_, ?_, ?_⟩
    · rw [MA, hC, meanL_eq_sum_div _ N hwl]
    · rw [STDvar, hC, popVar_eq_explicit _ N hwl]
    · rw [SUM, hC]
    · rw [HHV, hC]
    · rw [LLV, hC]

/-- Witness for the C8 theorem at S = [1, 2, 3], N = 2. -/
theorem C8_rolling_statistics_witness :
    (((MA ([(1 : ℚ), 2, 3].map some) 2).length = [(1 : ℚ), 2, 3].length ∧
      (STDvar ([(1 : ℚ), 2, 3].map some) 2).length = [(1 : ℚ), 2, 3].length ∧
      (SUM ([(1 : ℚ), 2, 3].map some) 2).length = [(1 : ℚ), 2, 3].length ∧
      (HHV ([(1 : ℚ), 2, 3].map some) 2).length = [(1 : ℚ), 2, 3].length ∧
      (LLV ([(1 : ℚ), 2, 3].map some) 2).length = [(1 : ℚ), 2, 3].length) ∧
     (∀ i, i < [(1 : ℚ), 2, 3].length →
       (((MA ([(1 : ℚ), 2, 3].map some) 2).get? i = some none ↔ i < 2 - 1) ∧
        ((STDvar ([(1 : ℚ), 2, 3].map some) 2).get? i = some none ↔ i < 2 - 1) ∧
        ((SUM ([(1 : ℚ), 2, 3].map some) 2).get? i = some none ↔ i < 2 - 1) ∧
        ((HHV ([(1 : ℚ), 2, 3].map some) 2).get? i = some none ↔ i < 2 - 1) ∧
        ((LLV ([(1 : ℚ), 2, 3].map some) 2).get? i = some none ↔ i < 2 - 1))) ∧
     (∀ i, 2 - 1 ≤ i → i < [(1 : ℚ), 2, 3].length →
       ((([(1 : ℚ), 2, 3].drop (i + 1 - 2)).take 2).length = 2 ∧
        (MA ([(1 : ℚ), 2, 3].map some) 2).get? i
          = some (some ((([(1 : ℚ), 2, 3].drop (i + 1 - 2)).take 2).sum / (2 : ℚ))) ∧
        (STDvar ([(1 : ℚ), 2, 3].map some) 2).get? i
          = some (some (((([(1 : ℚ), 2, 3].drop (i + 1 - 2)).take 2).map
              (fun x => (x - (([(1 : ℚ), 2, 3].drop (i + 1 - 2)).take 2).sum / (2 : ℚ)) ^ 2)).sum / (2 : ℚ))) ∧
        (SUM ([(1 : ℚ), 2, 3].map some) 2).get? i
          = some (some (([(1 : ℚ), 2, 3].drop (i + 1 - 2)).take 2).sum) ∧
        (HHV ([(1 : ℚ), 2, 3].map some) 2).get? i
          = some (some (maxL (([(1 : ℚ), 2, 3].drop (i + 1 - 2)).take 2))) ∧
        (LLV ([(1 : ℚ), 2, 3].map some) 2).get? i
          = some (some (minL (([(1 : ℚ), 2, 3].drop (i + 1 - 2)).take 2)))))) :=
  C8_rolling_statistics [1, 2, 3] 2 (by norm_num)

/-- Tail of the adjust=False exponential recurrence: given the previous
smoothed value, emits a * x + (1 - a) * prev for each new sample. -/
def emaFrom (a : ℚ) : ℚ → List ℚ → List ℚ
  | _, [] => []
  | prev, x :: xs => (a * x + (1 - a) * prev) :: emaFrom a (a * x + (1 - a) * prev) xs

/-- EMA from src/MyTT.py line 38: pandas ewm(span=N, adjust=False).mean()
on a clean series; alpha = 2/(N+1) and the output is seeded with the first
sample itself. -/
def EMA (S : List ℚ) (N : ℕ) : List ℚ :=
  match S with
  | [] => []
  | x :: xs => x :: emaFrom (2 / ((N : ℚ) + 1)) x xs

theorem emaFrom_length (a : ℚ) : ∀ (p : ℚ) (xs : List ℚ),
    (emaFrom a p xs).length = xs.length := by
  intro p xs
  induction xs generalizing p with
  | nil => rfl
  | cons x xs ih => simp [emaFrom, ih]

theorem EMA_length (S : List ℚ) (N : ℕ) : (EMA S N).length = S.length := by
  cases S with
  | nil => rfl
  | cons x xs => simp [EMA, emaFrom_length]

theorem emaFrom_rec (a : ℚ) : ∀ (xs : List ℚ) (p : ℚ) (i : ℕ), i < xs.length →
    (emaFrom a p xs).get? i
      = some (a * xs.getD i 0 + (1 - a) *
          (if i = 0 then p else (emaFrom a p xs).getD (i - 1) 0)) := by
  intro xs
  induction xs with
  | nil => intro p i h; simp at h
  | cons x xs ih =>
    intro p i h
    match i with
    | 0 => rfl
    | j + 1 =>
      have hj : j < xs.length := by simpa using h
      have step := ih (a * x + (1 - a) * p) j hj
      rw [show emaFrom a p (x :: xs)
            = (a * x + (1 - a) * p) :: emaFrom a (a * x + (1 - a) * p) xs from rfl]
      rw [List.get?_cons_succ, step]
      rcases j with _ | k
      · simp
      · simp [List.getD_cons_succ]

theorem emaFrom_const (a c : ℚ) (n : ℕ) :
    emaFrom a c (List.replicate n c) = List.replicate n c := by
  induction n with
  | zero => rfl
  | succ n ih =>
    have hc : a * c + (1 - a) * c = c := by ring
    simp only [List.replicate_succ, emaFrom, hc, ih]

/-- C6: EMA is seeded exactly with the first sample (no NaN warm-up), obeys
the recurrence EMA[i] = a * S[i] + (1 − a) * EMA[i−1] with a = 2/(N+1) at
every later index, and maps a constant series to itself. -/
theorem C6_ema_recurrence (S : List ℚ) (N : ℕ) (x0 : ℚ) (h0 : S.get? 0 = some x0)
    (c : ℚ) (n : ℕ) :
    (EMA S N).get? 0 = some x0 ∧
    (∀ i, i + 1 < S.length →
      (EMA S N).get? (i + 1)
        = some ((2 / ((N : ℚ) + 1)) * S.getD (i + 1) 0
            + (1 - 2 / ((N : ℚ) + 1)) * (EMA S N).getD i 0)) ∧
    EMA (List.replicate n c) N = List.replicate n c := by
  match S, h0 with
  | x :: xs, h0 =>
    have hx : x = x0 := by simpa using h0
    subst hx
    refine ⟨rfl, ?_, ?_⟩
    · intro i hi
      have hxi : i < xs.length := by simpa using hi
      rw [show EMA (x :: xs) N = x :: emaFrom (2 / ((N : ℚ) + 1)) x xs from rfl,
        List.get?_cons_succ, emaFrom_rec _ xs x i hxi]
      rcases i with _ | k
      · simp
      · simp [List.getD_cons_succ]
    · cases n with
      | zero => rfl
      | succ m =>
        simp only [List.replicate_succ, EMA, emaFrom_const]

/-- Witness for the C6 theorem at S = [5, 7], N = 2, constant series 3³. -/
theorem C6_ema_recurrence_witness :
    (EMA [(5 : ℚ), 7] 2).get? 0 = some 5 ∧
    (∀ i, i + 1 < [(5 : ℚ), 7].length →
      (EMA [(5 : ℚ), 7] 2).get? (i + 1)
        = some ((2 / ((2 : ℚ) + 1)) * [(5 : ℚ), 7].getD (i + 1) 0
            + (1 - 2 / ((2 : ℚ) + 1)) * (EMA [(5 : ℚ), 7] 2).getD i 0)) ∧
    EMA (List.replicate 3 (3 : ℚ)) 2 = List.replicate 3 (3 : ℚ) :=
  C6_ema_recurrence [5, 7] 2 5 rfl 3 3

/-- DIF local of MACD, src/MyTT.py line 88: EMA(close, SHORT) − EMA(close, LONG). -/
def macdDIF (C : List ℚ) (S L : ℕ) : List ℚ :=
  List.zipWith (fun a b => a - b) (EMA C S) (EMA C L)

/-- DEA local of MACD, src/MyTT.py line 89: EMA(DIF, M). -/
def macdDEA (C : List ℚ) (S L M : ℕ) : List ℚ := EMA (macdDIF C S L) M

/-- Raw MACD column, src/MyTT.py line 89: (DIF − DEA) · 2. -/
def macdRaw (C : List ℚ) (S L M : ℕ) : List ℚ :=
  (List.zipWith (fun a b => a - b) (macdDIF C S L) (macdDEA C S L M)).map
    (fun x => x * 2)

/-- MACD from src/MyTT.py lines 87-90 on a clean close series: DIF is the
difference of the fast and slow EMA, DEA an EMA of DIF, and MACD twice
their difference; all three are rounded to three decimals on return. -/
def MACD (C : List ℚ) (S L M : ℕ) : List ℚ × List ℚ × List ℚ :=
  ((macdDIF C S L).map rd3, (macdDEA C S L M).map rd3, (macdRaw C S L M).map rd3)

theorem getD_map_rd3 (l : List ℚ) (i : ℕ) (h : i < l.length) :
    (l.map rd3).getD i 0 = rd3 (l.getD i 0) := by
  rw [List.getD_eq_getElem _ 0 (by simpa using h), List.getElem_map,
    List.getD_eq_getElem _ 0 h]

theorem fract_def (q : ℚ) : q - (⌊q⌋ : ℚ) = Int.fract q := rfl

theorem rhe_abs_le (q : ℚ) : |(rhe q : ℚ) - q| ≤ 1 / 2 := by
  rw [rhe]
  have h0 : (0 : ℚ) ≤ q - (⌊q⌋ : ℚ) := by
    rw [fract_def]; exact Int.fract_nonneg q
  have h1 : q - (⌊q⌋ : ℚ) < 1 := by
    rw [fract_def]; exact Int.fract_lt_one q
  by_cases ha : q - (⌊q⌋ : ℚ) < 1 / 2
  · rw [if_pos ha, abs_le]
    constructor <;> linarith
  · rw [if_neg ha]
    by_cases hb : 1 / 2 < q - (⌊q⌋ : ℚ)
    · rw [if_pos hb]
      rw [abs_le]
      push_cast
      constructor <;> linarith
    · rw [if_neg hb]
      have hr : q - (⌊q⌋ : ℚ) = 1 / 2 := le_antisymm (not_lt.mp hb) (not_lt.mp ha)
      by_cases hc : ⌊q⌋ % 2 = 0
      · rw [if_pos hc, abs_le]
        constructor <;> linarith
      · rw [if_neg hc, abs_le]
        push_cast
        constructor <;> linarith

theorem rd3_abs_le (q : ℚ) : |rd3 q - q| ≤ 1 / 2000 := by
  have h := rhe_abs_le (1000 * q)
  rw [rd3]
  have he : (rhe (1000 * q) : ℚ) / 1000 - q = ((rhe (1000 * q) : ℚ) - 1000 * q) / 1000 := by
    ring
  rw [he, abs_div]
  rw [show |(1000 : ℚ)| = 1000 from by norm_num]
  linarith

/-- C7: for the triple returned by MACD, the histogram column differs from
twice the difference of the returned DIF and DEA columns by at most 1/400,
the slack coming only from the three independent roundings to three
decimals; before rounding the identity MACD = 2·(DIF − DEA) is exact. -/
theorem C7_macd_identity (C : List ℚ) (S L M i : ℕ) (h : i < C.length) :
    |(MACD C S L M).2.2.getD i 0
      - 2 * ((MACD C S L M).1.getD i 0 - (MACD C S L M).2.1.getD i 0)| ≤ 1 / 400 := by
  have hdif : (macdDIF C S L).length = C.length := by
    simp [macdDIF, EMA_length]
  have hdea : (macdDEA C S L M).length = C.length := by
    rw [macdDEA, EMA_length, hdif]
  have hdi : i < (macdDIF C S L).length := by omega
  have hei : i < (macdDEA C S L M).length := by omega
  have hzi : i < (List.zipWith (fun a b => a - b) (macdDIF C S L) (macdDEA C S L M)).length := by
    rw [List.length_zipWith]
    omega
  have h1 : (MACD C S L M).1.getD i 0 = rd3 ((macdDIF C S L).getD i 0) :=
    getD_map_rd3 _ i hdi
  have h2 : (MACD C S L M).2.1.getD i 0 = rd3 ((macdDEA C S L M).getD i 0) :=
    getD_map_rd3 _ i hei
  have hrawD : (macdRaw C S L M).getD i 0
      = ((macdDIF C S L).getD i 0 - (macdDEA C S L M).getD i 0) * 2 := by
    rw [macdRaw, List.getD_eq_getElem _ 0 (by simpa using hzi), List.getElem_map,
      List.getElem_zipWith, List.getD_eq_getElem _ 0 hdi, List.getD_eq_getElem _ 0 hei]
  have h3 : (MACD C S L M).2.2.getD i 0
      = rd3 (((macdDIF C S L).getD i 0 - (macdDEA C S L M).getD i 0) * 2) := by
    have : (MACD C S L M).2.2.getD i 0 = rd3 ((macdRaw C S L M).getD i 0) :=
      getD_map_rd3 _ i (by simpa [macdRaw, List.length_zipWith] using hzi)
    rw [this, hrawD]
  set d := (macdDIF C S L).getD i 0 with hd
  set e := (macdDEA C S L M).getD i 0 with he
  rw [h1, h2, h3]
  have b1 := rd3_abs_le ((d - e) * 2)
  have b2 := rd3_abs_le d
  have b3 := rd3_abs_le e
  have hsplit : rd3 ((d - e) * 2) - 2 * (rd3 d - rd3 e)
      = (rd3 ((d - e) * 2) - (d - e) * 2) - 2 * (rd3 d - d) + 2 * (rd3 e - e) := by
    ring
  rw [hsplit]
  have t1 : |(rd3 ((d - e) * 2) - (d - e) * 2) - 2 * (rd3 d - d) + 2 * (rd3 e - e)|
      ≤ |(rd3 ((d - e) * 2) - (d - e) * 2) - 2 * (rd3 d - d)| + |2 * (rd3 e - e)| :=
    abs_add _ _
  have t2 : |(rd3 ((d - e) * 2) - (d - e) * 2) - 2 * (rd3 d - d)|
      ≤ |rd3 ((d - e) * 2) - (d - e) * 2| + |2 * (rd3 d - d)| := abs_sub _ _
  have t3 : |2 * (rd3 d - d)| = 2 * |rd3 d - d| := by
    rw [abs_mul]; norm_num
  have t4 : |2 * (rd3 e - e)| = 2 * |rd3 e - e| := by
    rw [abs_mul]; norm_num
  rw [t3] at t2
  rw [t4] at t1
  linarith

/-- Witness for the C7 theorem at close = [1, 2], default parameters, i = 1. -/
theorem C7_macd_identity_witness :
    |(MACD [(1 : ℚ), 2] 12 26 9).2.2.getD 1 0
      - 2 * ((MACD [(1 : ℚ), 2] 12 26 9).1.getD 1 0
          - (MACD [(1 : ℚ), 2] 12 26 9).2.1.getD 1 0)| ≤ 1 / 400 :=
  C7_macd_identity [1, 2] 12 26 9 1 (by norm_num)

/-- One assignment of the SMA loop body, src/MyTT.py line 43:
K[i] = (M·S[i] + (N−M)·K[i−1]) / N, in NaN-propagating float arithmetic. -/
def smaStep (n m : ℚ) (prev s : V) : V :=
  vdiv (vadd (vmul (some m) s) (vmul (some (n - m)) prev)) (some n)

/-- The SMA loop of src/MyTT.py line 43, running over the samples from
index N+1 onward, threading the previous (already overwritten) output. -/
def smaGo (n m : ℚ) : V → List V → List V
  | _, [] => []
  | prev, s :: rest => smaStep n m prev s :: smaGo n m (smaStep n m prev s) rest

/-- SMA from src/MyTT.py lines 41-44: the rolling-mean seed is kept on
indices 0..N (the loop starts at N+1), and every later index is the
recurrence applied to the previous smoothed value. -/
def SMA (S : List V) (N M : ℕ) : List V :=
  (winAgg meanL S N).take (N + 1)
    ++ smaGo (N : ℚ) (M : ℚ) ((winAgg meanL S N).getD N none) (S.drop (N + 1))

theorem smaGo_length (n m : ℚ) : ∀ (p : V) (xs : List V),
    (smaGo n m p xs).length = xs.length := by
  intro p xs
  induction xs generalizing p with
  | nil => rfl
  | cons x xs ih => simp [smaGo, ih]

theorem SMA_length (S : List V) (N M : ℕ) : (SMA S N M).length = S.length := by
  rw [SMA]
  simp only [List.length_append, List.length_take, winAgg_length, smaGo_length,
    List.length_drop]
  omega

theorem SMA_get?_seed (S : List V) (N M i : ℕ) (hi : i ≤ N) :
    (SMA S N M).get? i = (winAgg meanL S N).get? i := by
  by_cases hL : i < S.length
  · have ht : i < ((winAgg meanL S N).take (N + 1)).length := by
      simp only [List.length_take, winAgg_length]
      omega
    rw [SMA, List.get?_append ht, List.get?_take (by omega)]
  · rw [List.get?_len_le (by rw [SMA_length]; omega),
      List.get?_len_le (by rw [winAgg_length]; omega)]

theorem SMA_get?_after (S : List V) (N M i : ℕ) (hi : N + 1 ≤ i) (hL : i < S.length) :
    (SMA S N M).get? i
      = (smaGo (N : ℚ) (M : ℚ) ((winAgg meanL S N).getD N none)
          (S.drop (N + 1))).get? (i - (N + 1)) := by
  have ht : ((winAgg meanL S N).take (N + 1)).length = N + 1 := by
    simp only [List.length_take, winAgg_length]
    omega
  rw [SMA, List.get?_append_right (by omega), ht]

theorem smaGo_get?_eq (n m : ℚ) : ∀ (xs : List V) (p : V) (j : ℕ), j < xs.length →
    (smaGo n m p xs).get? j
      = some (smaStep n m
          (if j = 0 then p else (smaGo n m p xs).getD (j - 1) none)
          (xs.getD j none)) := by
  intro xs
  induction xs with
  | nil => intro p j h; simp at h
  | cons x xs ih =>
    intro p j h
    match j with
    | 0 => rfl
    | k + 1 =>
      have hk : k < xs.length := by simpa using h
      have step := ih (smaStep n m p x) k hk
      rw [show smaGo n m p (x :: xs)
            = smaStep n m p x :: smaGo n m (smaStep n m p x) xs from rfl,
        List.get?_cons_succ, step]
      rcases k with _ | k'
      · simp
      · simp [List.getD_cons_succ]

theorem getD_map_some (T : List ℚ) (i : ℕ) (h : i < T.length) :
    (T.map some).getD i none = some (T.getD i 0) := by
  rw [List.getD_eq_getElem _ none (by simpa using h), List.getElem_map,
    List.getD_eq_getElem _ 0 h]

theorem getD_drop_add (l : List V) (k j : ℕ) (h : k + j < l.length) :
    (l.drop k).getD j none = l.getD (k + j) none := by
  have hj : j < (l.drop k).length := by
    rw [List.length_drop]
    omega
  rw [List.getD_eq_getElem _ none hj, List.getElem_drop, List.getD_eq_getElem _ none h]

theorem getD_of_get? {l : List V} {n : ℕ} {v : V} (h : l.get? n = some v) :
    l.getD n none = v := by
  rw [List.getD_eq_getD_get?, h]
  rfl

/-- Defined values and recurrence structure of the SMA output from index N
onward, on a clean input series. -/
theorem sma_chain (T : List ℚ) (N M : ℕ) (hN : 1 ≤ N) :
    ∀ i, N ≤ i → i < T.length →
      ∃ p, (SMA (T.map some) N M).get? i = some (some p) ∧
        (N < i → ∃ q, (SMA (T.map some) N M).get? (i - 1) = some (some q) ∧
          p = ((M : ℚ) * T.getD i 0 + ((N : ℚ) - (M : ℚ)) * q) / (N : ℚ)) := by
  have hNq : (N : ℚ) ≠ 0 := Nat.cast_ne_zero.mpr (by omega)
  intro i hi
  induction i, hi using Nat.le_induction with
  | base =>
    intro hlen
    have hseed := SMA_get?_seed (T.map some) N M N le_rfl
    have hK := winAgg_get?_clean meanL T N N hlen (by omega)
    exact ⟨meanL ((T.drop (N + 1 - N)).take N), by rw [hseed, hK], fun hc => absurd hc (lt_irrefl N)⟩
  | succ i hi ih =>
    intro hlen1
    have hleni : i < T.length := by omega
    obtain ⟨p, hp, -⟩ := ih hleni
    have hafter : (SMA (T.map some) N M).get? (i + 1)
        = (smaGo (N : ℚ) (M : ℚ) ((winAgg meanL (T.map some) N).getD N none)
            ((T.map some).drop (N + 1))).get? (i - N) := by
      rw [SMA_get?_after (T.map some) N M (i + 1) (by omega) (by simpa using hlen1)]
      congr 1
      omega
    have hj : i - N < ((T.map some).drop (N + 1)).length := by
      simp only [List.length_drop, List.length_map]
      omega
    have hgo := smaGo_get?_eq (N : ℚ) (M : ℚ) ((T.map some).drop (N + 1))
      ((winAgg meanL (T.map some) N).getD N none) (i - N) hj
    have hx : ((T.map some).drop (N + 1)).getD (i - N) none
        = some (T.getD (i + 1) 0) := by
      have h1 : N + 1 + (i - N) = i + 1 := by omega
      rw [getD_drop_add (T.map some) (N + 1) (i - N)
        (by simp only [List.length_map]; omega), h1,
        getD_map_some T (i + 1) (by omega)]
    have hprev : (if i - N = 0
          then (winAgg meanL (T.map some) N).getD N none
          else (smaGo (N : ℚ) (M : ℚ) ((winAgg meanL (T.map some) N).getD N none)
              ((T.map some).drop (N + 1))).getD (i - N - 1) none)
        = some p := by
      by_cases h0 : i - N = 0
      · have hiN : i = N := by omega
        rw [if_pos h0]
        have hseed := SMA_get?_seed (T.map some) N M N le_rfl
        rw [hiN, hseed] at hp
        exact getD_of_get? hp
      · rw [if_neg h0]
        have hafteri : (SMA (T.map some) N M).get? i
            = (smaGo (N : ℚ) (M : ℚ) ((winAgg meanL (T.map some) N).getD N none)
                ((T.map some).drop (N + 1))).get? (i - N - 1) := by
          rw [SMA_get?_after (T.map some) N M i (by omega) (by simpa using hleni),
            Nat.sub_sub]
        exact getD_of_get? (by rw [← hafteri]; exact hp)
    have hstep : smaStep (N : ℚ) (M : ℚ) (some p) (some (T.getD (i + 1) 0))
        = some (((M : ℚ) * T.getD (i + 1) 0 + ((N : ℚ) - (M : ℚ)) * p) / (N : ℚ)) := by
      simp [smaStep, vmul, vadd, vdiv, hNq]
    refine ⟨((M : ℚ) * T.getD (i + 1) 0 + ((N : ℚ) - (M : ℚ)) * p) / (N : ℚ), ?_, ?_⟩
    · rw [hafter, hgo, hx, hprev, hstep]
    · intro _
      exact ⟨p, by simpa using hp, rfl⟩

/-- C4: on a clean series the China-style SMA keeps the plain rolling mean
on every index i ≤ N (NaN warm-up below N−1, first mean at N−1, and the
boundary index N itself, since the loop starts at N+1), and for every
i > N the output obeys K[i] = (M·S[i] + (N−M)·K[i−1]) / N where K[i−1] is
the previous smoothed output value, not the previous raw sample. -/
theorem C4_sma_seed_and_recurrence (T : List ℚ) (N M : ℕ) (hN : 1 ≤ N) :
    (∀ i, i ≤ N →
      (SMA (T.map some) N M).get? i = (winAgg meanL (T.map some) N).get? i) ∧
    (∀ i, N < i → i < T.length →
      ∃ q p, (SMA (T.map some) N M).get? (i - 1) = some (some q) ∧
        (SMA (T.map some) N M).get? i = some (some p) ∧
        p = ((M : ℚ) * T.getD i 0 + ((N : ℚ) - (M : ℚ)) * q) / (N : ℚ)) := by
  refine ⟨fun i hi => SMA_get?_seed (T.map some) N M i hi, fun i hgt hlen => ?_⟩
  obtain ⟨p, hp, hrec⟩ := sma_chain T N M hN i (by omega) hlen
  obtain ⟨q, hq, hval⟩ := hrec hgt
  exact ⟨q, p, hq, hp, hval⟩

/-- Witness for the C4 theorem at S = [1, 2, 3, 4], N = 2, M = 1. -/
theorem C4_sma_seed_and_recurrence_witness :
    (∀ i, i ≤ 2 →
      (SMA ([(1 : ℚ), 2, 3, 4].map some) 2 1).get? i
        = (winAgg meanL ([(1 : ℚ), 2, 3, 4].map some) 2).get? i) ∧
    (∀ i, 2 < i → i < [(1 : ℚ), 2, 3, 4].length →
      ∃ q p, (SMA ([(1 : ℚ), 2, 3, 4].map some) 2 1).get? (i - 1) = some (some q) ∧
        (SMA ([(1 : ℚ), 2, 3, 4].map some) 2 1).get? i = some (some p) ∧
        p = ((1 : ℚ) * [(1 : ℚ), 2, 3, 4].getD i 0 + ((2 : ℚ) - (1 : ℚ)) * q) / (2 : ℚ)) :=
  C4_sma_seed_and_recurrence [1, 2, 3, 4] 2 1 (by norm_num)

/-- The one-bar price difference CLOSE − REF(CLOSE, 1) of src/MyTT.py line 98. -/
def rsiDIF (C : List V) : List V := List.zipWith vsub C (REF C 1)

/-- RSI from src/MyTT.py lines 97-99: SMA of the clipped gains divided by
the SMA of the absolute moves, scaled to 100 and rounded to three
decimals. -/
def RSI (C : List V) (N : ℕ) : List V :=
  ((List.zipWith vdiv (SMA ((rsiDIF C).map vmax0) N 1)
      (SMA ((rsiDIF C).map vabs) N 1)).map
    (fun x => vmul x (some 100))).map vrd

/-- np.nan_to_num with nan=50 as called at src/core/indicators.py line 116:
every non-finite cell becomes a finite default, 50 in the NaN case. -/
def nanToNum50 : V → ℚ
  | none => 50
  | some v => v

/-- The RSI column stored by the orchestrator,
src/core/indicators.py lines 114-116: the raw RSI series passed through
np.nan_to_num(·, nan=50). -/
def rsiColumn (close : List V) : List ℚ := (RSI close 14).map nanToNum50

/-- C5: counterexample.  On the close series [10, 11, 12] the RSI series is
NaN at every index (warm-up), yet the stored RSI column holds the number
50 everywhere: the orchestrator substitutes the default 50 for NaN instead
of preserving it. -/
theorem C5_counterexample :
    RSI [some 10, some 11, some 12] 14 = [none, none, none] ∧
    rsiColumn [some 10, some 11, some 12] = [50, 50, 50] := by
  have h : RSI [some 10, some 11, some 12] 14 = [none, none, none] := by
    norm_num [RSI, rsiDIF, REF, SMA, winAgg, allSome, smaGo, vsub, vmax0, vabs,
      vrd, vmul, vdiv, List.range_succ]
  exact ⟨h, by rw [rsiColumn, h]; rfl⟩

/-- C5 (amended): NaN is not preserved in the stored RSI column; the
orchestrator passes the RSI series through np.nan_to_num with default 50,
so NaN cells are stored as the number 50 while finite cells are stored
unchanged. -/
theorem C5_rsi_nan_becomes_50 (close : List V) (i : ℕ) :
    ((RSI close 14).get? i = some none → (rsiColumn close).get? i = some 50) ∧
    (∀ v : ℚ, (RSI close 14).get? i = some (some v) →
      (rsiColumn close).get? i = some v) := by
  constructor
  · intro hn
    rw [rsiColumn, List.get?_map, hn]
    rfl
  · intro v hv
    rw [rsiColumn, List.get?_map, hv]
    rfl

/-- An output column of the indicator frame: a name with a value series. -/
abbrev Col := String × List V

/-- One indicator-group helper of src/core/indicators.py (lines 67-100 and
the five analogous helpers): the body computes columns or raises; the
helper catches the exception, logs, and re-raises, so the outcome passes
through unchanged. -/
def calcHelper (comp : Except String (List Col)) : Except String (List Col) := comp

/-- The six group computations run by the orchestrator, each recorded by
its outcome: ok with the columns it adds, or error when it raises. -/
structure IndicatorGroups where
  trend : Except String (List Col)
  oscillator : Except String (List Col)
  volume : Except String (List Col)
  momentum : Except String (List Col)
  movingAvg : Except String (List Col)
  volatility : Except String (List Col)

/-- calculate_all_indicators, src/core/indicators.py lines 23-65: None on
empty input, otherwise the six helpers run in order, merging columns onto
a copy of the frame; an exception escaping any helper is caught at the top
level and the whole call returns None. -/
def calculate_all_indicators (base : List Col) (g : IndicatorGroups) :
    Option (List Col) :=
  if base.isEmpty then none
  else
    match (calcHelper g.trend).bind (fun t =>
      (calcHelper g.oscillator).bind (fun o =>
        (calcHelper g.volume).bind (fun v =>
          (calcHelper g.momentum).bind (fun m =>
            (calcHelper g.movingAvg).bind (fun a =>
              (calcHelper g.volatility).bind (fun w =>
                Except.ok (t ++ o ++ v ++ m ++ a ++ w))))))) with
    | .ok cols => some (base ++ cols)
    | .error _ => none

/-- C1: counterexample.  With the trend group raising (as insufficient
input length does) and every other group succeeding, the orchestrator
returns None for the whole bundle: no bundle containing the successfully
computed oscillator column is returned, so the failure is not isolated. -/
theorem C1_counterexample :
    calculate_all_indicators [("close", [some 1])]
      ⟨Except.error "insufficient input length",
       Except.ok [("K", [some 1])], Except.ok [], Except.ok [],
       Except.ok [], Except.ok []⟩ = none := rfl

/-- C1 (amended): the helpers log and re-raise, so one failing group
aborts everything: calculate_all_indicators returns None for the entire
bundle whenever any group raises, and returns the merged columns only
when every group succeeds; failures are reported by logging, not isolated
into a partial bundle. -/
theorem C1_group_error_aborts_bundle (base : List Col) (g : IndicatorGroups)
    (hbase : base.isEmpty = false) :
    ((∃ e, g.trend = .error e ∨ g.oscillator = .error e ∨ g.volume = .error e ∨
        g.momentum = .error e ∨ g.movingAvg = .error e ∨ g.volatility = .error e) →
      calculate_all_indicators base g = none) ∧
    (∀ t o v m a w, g.trend = .ok t → g.oscillator = .ok o → g.volume = .ok v →
      g.momentum = .ok m → g.movingAvg = .ok a → g.volatility = .ok w →
      calculate_all_indicators base g
        = some (base ++ (t ++ o ++ v ++ m ++ a ++ w))) := by
  obtain ⟨t, o, v, m, a, w⟩ := g
  constructor
  · rintro ⟨e, he⟩
    cases t <;> cases o <;> cases v <;> cases m <;> cases a <;> cases w <;>
      simp [calculate_all_indicators, calcHelper, hbase, Except.bind] at he ⊢
  · intro t' o' v' m' a' w' ht ho hv hm ha hw
    cases ht
    cases ho
    cases hv
    cases hm
    cases ha
    cases hw
    simp [calculate_all_indicators, calcHelper, hbase, Except.bind]

/-- Witness for the amended C1 theorem: concrete base frame, trend failing,
oscillator succeeding. -/
theorem C1_group_error_aborts_bundle_witness :
    (((∃ e, (Except.error "boom" : Except String (List Col)) = .error e ∨
        (Except.ok [("K", [some 1])] : Except String (List Col)) = .error e ∨
        (Except.ok [] : Except String (List Col)) = .error e ∨
        (Except.ok [] : Except String (List Col)) = .error e ∨
        (Except.ok [] : Except String (List Col)) = .error e ∨
        (Except.ok [] : Except String (List Col)) = .error e) →
      calculate_all_indicators [("close", [some 1])]
        ⟨Except.error "boom", Except.ok [("K", [some 1])], Except.ok [],
         Except.ok [], Except.ok [], Except.ok []⟩ = none) ∧
    (∀ t o v m a w,
      (Except.error "boom" : Except String (List Col)) = .ok t →
      (Except.ok [("K", [some 1])] : Except String (List Col)) = .ok o →
      (Except.ok [] : Except String (List Col)) = .ok v →
      (Except.ok [] : Except String (List Col)) = .ok m →
      (Except.ok [] : Except String (List Col)) = .ok a →
      (Except.ok [] : Except String (List Col)) = .ok w →
      calculate_all_indicators [("close", [some 1])]
        ⟨Except.error "boom", Except.ok [("K", [some 1])], Except.ok [],
         Except.ok [], Except.ok [], Except.ok []⟩
        = some ([("close", [some 1])] ++ (t ++ o ++ v ++ m ++ a ++ w)))) :=
  C1_group_error_aborts_bundle [("close", [some 1])]
    ⟨Except.error "boom", Except.ok [("K", [some 1])], Except.ok [],
     Except.ok [], Except.ok [], Except.ok []⟩ rfl

/-! Machinery for oscillator boundedness: pairwise domination of float
cells, preserved by the rolling mean and by the SMA recurrence. -/

/-- Domination of float cells: both NaN, or both finite with 0 ≤ a ≤ b. -/
def VleNN : V → V → Prop
  | none, none => True
  | some a, some b => 0 ≤ a ∧ a ≤ b
  | _, _ => False

theorem VleNN_vmax0_vabs (v : V) : VleNN (vmax0 v) (vabs v) := by
  cases v with
  | none => trivial
  | some d => exact ⟨le_max_right d 0, max_le (le_abs_self d) (abs_nonneg d)⟩

theorem forall₂_vmax0_vabs (D : List V) :
    List.Forall₂ VleNN (D.map vmax0) (D.map vabs) := by
  induction D with
  | nil => exact List.Forall₂.nil
  | cons v D ih => exact List.Forall₂.cons (VleNN_vmax0_vabs v) ih

theorem allSome_rel : ∀ {u w : List V}, List.Forall₂ VleNN u w →
    (allSome u = none ∧ allSome w = none) ∨
    ∃ us ws, allSome u = some us ∧ allSome w = some ws ∧
      List.Forall₂ (fun a b => 0 ≤ a ∧ a ≤ b) us ws := by
  intro u w h
  induction h with
  | nil => exact Or.inr ⟨[], [], rfl, rfl, List.Forall₂.nil⟩
  | cons hd tl ih =>
    rename_i x y u' w'
    cases x with
    | none =>
      cases y with
      | none => exact Or.inl ⟨rfl, rfl⟩
      | some b => exact absurd hd (by simp [VleNN])
    | some a =>
      cases y with
      | none => exact absurd hd (by simp [VleNN])
      | some b =>
        rcases ih with ⟨hu, hw⟩ | ⟨us, ws, hu, hw, hrel⟩
        · exact Or.inl ⟨by simp [allSome, hu], by simp [allSome, hw]⟩
        · exact Or.inr ⟨a :: us, b :: ws, by simp [allSome, hu],
            by simp [allSome, hw], List.Forall₂.cons hd hrel⟩

theorem sum_rel : ∀ {us ws : List ℚ},
    List.Forall₂ (fun a b => 0 ≤ a ∧ a ≤ b) us ws →
    0 ≤ us.sum ∧ us.sum ≤ ws.sum := by
  intro us ws h
  induction h with
  | nil => simp
  | cons hd tl ih =>
    refine ⟨by simp; linarith [hd.1, ih.1], ?_⟩
    simp only [List.sum_cons]
    linarith [hd.2, ih.2]

theorem meanL_rel {us ws : List ℚ}
    (h : List.Forall₂ (fun a b => 0 ≤ a ∧ a ≤ b) us ws) :
    0 ≤ meanL us ∧ meanL us ≤ meanL ws := by
  have hlen := h.length_eq
  have hsum := sum_rel h
  rw [meanL, meanL, ← hlen]
  rcases Nat.eq_zero_or_pos us.length with h0 | hpos
  · simp [h0]
  · have hL : (0 : ℚ) < us.length := by exact_mod_cast hpos
    exact ⟨div_nonneg hsum.1 hL.le, div_le_div_of_nonneg_right hsum.2 hL.le⟩

theorem VleNN_allSome_meanL {u w : List V} (h : List.Forall₂ VleNN u w) :
    VleNN ((allSome u).map meanL) ((allSome w).map meanL) := by
  rcases allSome_rel h with ⟨hu, hw⟩ | ⟨us, ws, hu, hw, hrel⟩
  · rw [hu, hw]
    trivial
  · rw [hu, hw]
    exact meanL_rel hrel

theorem VleNN_winAgg_mean {u w : List V} (h : List.Forall₂ VleNN u w) (N : ℕ) :
    List.Forall₂ VleNN (winAgg meanL u N) (winAgg meanL w N) := by
  have hlen := h.length_eq
  rw [List.forall₂_iff_get]
  refine ⟨by rw [winAgg_length, winAgg_length, hlen], ?_⟩
  intro i h1 h2
  rw [winAgg_length] at h1 h2
  have g1 := winAgg_get? meanL u N i h1
  have g2 := winAgg_get? meanL w N i h2
  have e1 : (winAgg meanL u N).get ⟨i, by rw [winAgg_length]; exact h1⟩
      = if N ≤ i + 1 then (allSome ((u.drop (i + 1 - N)).take N)).map meanL else none := by
    have := List.get?_eq_get (show i < (winAgg meanL u N).length by rw [winAgg_length]; exact h1)
    rw [this] at g1
    exact Option.some.inj g1
  have e2 : (winAgg meanL w N).get ⟨i, by rw [winAgg_length]; exact h2⟩
      = if N ≤ i + 1 then (allSome ((w.drop (i + 1 - N)).take N)).map meanL else none := by
    have := List.get?_eq_get (show i < (winAgg meanL w N).length by rw [winAgg_length]; exact h2)
    rw [this] at g2
    exact Option.some.inj g2
  rw [e1, e2]
  by_cases hN : N ≤ i + 1
  · rw [if_pos hN, if_pos hN]
    exact VleNN_allSome_meanL (List.forall₂_take N (List.forall₂_drop (i + 1 - N) h))
  · rw [if_neg hN, if_neg hN]
    trivial

theorem VleNN_smaStep (n m : ℚ) (hm : 0 ≤ m) (hnm : m ≤ n) :
    ∀ {p1 p2 s1 s2 : V}, VleNN p1 p2 → VleNN s1 s2 →
      VleNN (smaStep n m p1 s1) (smaStep n m p2 s2) := by
  intro p1 p2 s1 s2 hp hs
  cases p1 with
  | none =>
    cases p2 with
    | some q => exact absurd hp (by simp [VleNN])
    | none =>
      cases s1 with
      | none =>
        cases s2 with
        | some t => exact absurd hs (by simp [VleNN])
        | none => simp [smaStep, vmul, vadd, vdiv, VleNN]
      | some s =>
        cases s2 with
        | none => exact absurd hs (by simp [VleNN])
        | some t => simp [smaStep, vmul, vadd, vdiv, VleNN]
  | some p =>
    cases p2 with
    | none => exact absurd hp (by simp [VleNN])
    | some q =>
      cases s1 with
      | none =>
        cases s2 with
        | some t => exact absurd hs (by simp [VleNN])
        | none => simp [smaStep, vmul, vadd, vdiv, VleNN]
      | some s =>
        cases s2 with
        | none => exact absurd hs (by simp [VleNN])
        | some t =>
          obtain ⟨hp0, hpq⟩ := hp
          obtain ⟨hs0, hst⟩ := hs
          by_cases hn : n = 0
          · simp [smaStep, vmul, vadd, vdiv, hn, VleNN]
          · have hn0 : 0 < n := lt_of_le_of_ne (le_trans hm hnm) (Ne.symm hn)
            have hnm0 : 0 ≤ n - m := by linarith
            simp only [smaStep, vmul, vadd, vdiv, if_neg hn, VleNN]
            constructor
            · apply div_nonneg _ hn0.le
              have hx := mul_nonneg hm hs0
              have hy := mul_nonneg hnm0 hp0
              linarith
            · apply div_le_div_of_nonneg_right _ hn0.le
              have h1 : m * s ≤ m * t := mul_le_mul_of_nonneg_left hst hm
              have h2 : (n - m) * p ≤ (n - m) * q := mul_le_mul_of_nonneg_left hpq hnm0
              linarith

theorem VleNN_smaGo (n m : ℚ) (hm : 0 ≤ m) (hnm : m ≤ n) :
    ∀ {xs ys : List V} (_ : List.Forall₂ VleNN xs ys) {p1 p2 : V}
      (_ : VleNN p1 p2), List.Forall₂ VleNN (smaGo n m p1 xs) (smaGo n m p2 ys) := by
  intro xs ys h
  induction h with
  | nil => intro p1 p2 _; exact List.Forall₂.nil
  | cons hd tl ih =>
    intro p1 p2 hp
    exact List.Forall₂.cons (VleNN_smaStep n m hm hnm hp hd)
      (ih (VleNN_smaStep n m hm hnm hp hd))

theorem VleNN_getD_pair {u w : List V} (h : List.Forall₂ VleNN u w) (k : ℕ) :
    VleNN (u.getD k none) (w.getD k none) := by
  have hlen := h.length_eq
  by_cases hk : k < u.length
  · have hk2 : k < w.length := by omega
    rw [List.getD_eq_getElem u none hk, List.getD_eq_getElem w none hk2]
    exact (List.forall₂_iff_get.mp h).2 k hk hk2
  · rw [List.getD_eq_default u none (by omega), List.getD_eq_default w none (by omega)]
    trivial

theorem VleNN_SMA {u w : List V} (h : List.Forall₂ VleNN u w) (N M : ℕ)
    (hM : (M : ℚ) ≤ (N : ℚ)) :
    List.Forall₂ VleNN (SMA u N M) (SMA w N M) := by
  rw [SMA, SMA]
  exact List.rel_append
    (List.forall₂_take (N + 1) (VleNN_winAgg_mean h N))
    (VleNN_smaGo (N : ℚ) (M : ℚ) (by positivity) hM
      (List.forall₂_drop (N + 1) h)
      (VleNN_getD_pair (VleNN_winAgg_mean h N) N))

theorem le_foldl_max : ∀ (l : List ℚ) (c : ℚ), c ≤ l.foldl max c := by
  intro l
  induction l with
  | nil => intro c; exact le_refl c
  | cons b l ih => intro c; exact le_trans (le_max_left c b) (ih (max c b))

theorem mem_le_foldl_max : ∀ (l : List ℚ) (c x : ℚ), x ∈ l → x ≤ l.foldl max c := by
  intro l
  induction l with
  | nil => intro c x hx; simp at hx
  | cons b l ih =>
    intro c x hx
    rcases List.mem_cons.mp hx with rfl | hx
    · exact le_trans (le_max_right c x) (le_foldl_max l (max c x))
    · exact ih (max c b) x hx

theorem le_maxL {x : ℚ} {L : List ℚ} (hx : x ∈ L) : x ≤ maxL L := by
  cases L with
  | nil => simp at hx
  | cons a l =>
    rcases List.mem_cons.mp hx with rfl | hx
    · exact le_foldl_max l x
    · exact mem_le_foldl_max l a x hx

theorem foldl_min_le : ∀ (l : List ℚ) (c : ℚ), l.foldl min c ≤ c := by
  intro l
  induction l with
  | nil => intro c; exact le_refl c
  | cons b l ih => intro c; exact le_trans (ih (min c b)) (min_le_left c b)

theorem foldl_min_le_mem : ∀ (l : List ℚ) (c x : ℚ), x ∈ l → l.foldl min c ≤ x := by
  intro l
  induction l with
  | nil => intro c x hx; simp at hx
  | cons b l ih =>
    intro c x hx
    rcases List.mem_cons.mp hx with rfl | hx
    · exact le_trans (foldl_min_le l (min c x)) (min_le_right c x)
    · exact ih (min c b) x hx

theorem minL_le {x : ℚ} {L : List ℚ} (hx : x ∈ L) : minL L ≤ x := by
  cases L with
  | nil => simp at hx
  | cons a l =>
    rcases List.mem_cons.mp hx with rfl | hx
    · exact foldl_min_le l x
    · exact foldl_min_le_mem l a x hx

theorem getD_mem_window (T : List ℚ) (N i : ℕ) (h : i < T.length)
    (hN : N ≤ i + 1) (h1 : 1 ≤ N) :
    T.getD i 0 ∈ (T.drop (i + 1 - N)).take N := by
  have hwl : ((T.drop (i + 1 - N)).take N).length = N := window_len T N i h hN
  have hN1 : N - 1 < ((T.drop (i + 1 - N)).take N).length := by omega
  have hdl : N - 1 < (T.drop (i + 1 - N)).length := by
    rw [List.length_drop]
    omega
  have hgt : ((T.drop (i + 1 - N)).take N).get ⟨N - 1, hN1⟩ = T.getD i 0 := by
    rw [List.get_eq_getElem, List.getElem_take, List.getElem_drop,
      List.getD_eq_getElem T 0 h]
    congr 1
    show i + 1 - N + (N - 1) = i
    omega
  rw [← hgt]
  exact List.get_mem _ _ _

theorem rhe_nonneg {q : ℚ} (hq : 0 ≤ q) : 0 ≤ rhe q := by
  have hf : (0 : ℤ) ≤ ⌊q⌋ := Int.floor_nonneg.mpr hq
  rw [rhe]
  split
  · exact hf
  · split
    · omega
    · split
      · exact hf
      · omega

theorem rhe_le_bound {q : ℚ} {B : ℤ} (hq : q ≤ B) : rhe q ≤ B := by
  have hf : ⌊q⌋ ≤ B := by
    calc ⌊q⌋ ≤ ⌊(B : ℚ)⌋ := Int.floor_le_floor hq
    _ = B := Int.floor_intCast B
  rw [rhe]
  split
  · exact hf
  · rename_i hlt
    have hfrac : 1 / 2 ≤ q - (⌊q⌋ : ℚ) := not_lt.mp hlt
    have hstrict : ⌊q⌋ < B := by
      by_contra hcon
      have hqB : ⌊q⌋ = B := le_antisymm hf (not_lt.mp hcon)
      have : (B : ℚ) + 1 / 2 ≤ q := by
        rw [← hqB]
        linarith
      linarith
    split
    · omega
    · split
      · exact hf
      · omega

theorem rd3_range {q lo hi : ℚ} (hlo : lo ≤ q) (hhi : q ≤ hi) (hloI : ∃ z : ℤ, lo = (z : ℚ) / 1000)
    (hhiI : ∃ z : ℤ, hi = (z : ℚ) / 1000) : lo ≤ rd3 q ∧ rd3 q ≤ hi := by
  obtain ⟨zl, rfl⟩ := hloI
  obtain ⟨zh, rfl⟩ := hhiI
  constructor
  · rw [rd3, div_le_div_iff_of_pos_right (by norm_num : (0 : ℚ) < 1000)]
    have h1 : (zl : ℚ) ≤ 1000 * q := by linarith
    have h2 : zl ≤ ⌊1000 * q⌋ := Int.le_floor.mpr h1
    have h3 : (⌊1000 * q⌋ : ℤ) ≤ rhe (1000 * q) := by
      rw [rhe]
      split
      · exact le_refl _
      · split
        · omega
        · split
          · exact le_refl _
          · omega
    exact_mod_cast le_trans h2 h3
  · rw [rd3, div_le_div_iff_of_pos_right (by norm_num : (0 : ℚ) < 1000)]
    have h1 : 1000 * q ≤ (zh : ℚ) := by linarith
    exact_mod_cast rhe_le_bound h1

/-- pandas ewm(adjust=False, ignore_na=False) tail loop on float cells:
y is the last emitted value and w the decayed weight of the state; a NaN
sample emits the carried value and decays the weight further, a finite
sample emits the reweighted average and resets the weight to 1. -/
def ewmGo (a : ℚ) : ℚ → ℚ → List V → List V
  | _, _, [] => []
  | y, w, none :: xs => some y :: ewmGo a y (w * (1 - a)) xs
  | y, w, some x :: xs =>
      some ((w * (1 - a) * y + a * x) / (w * (1 - a) + a))
        :: ewmGo a ((w * (1 - a) * y + a * x) / (w * (1 - a) + a)) 1 xs

/-- pandas ewm(span=N, adjust=False, min_periods=0).mean() on a float
series with NaN cells, as pd.Series.ewm computes it: leading NaN cells
stay NaN, the first finite sample seeds the state with itself. -/
def EMAV : List V → ℕ → List V
  | [], _ => []
  | none :: xs, N => none :: EMAV xs N
  | some x :: xs, N => some x :: ewmGo (2 / ((N : ℚ) + 1)) x 1 xs

theorem ewmGo_bound (a lo hi : ℚ) (ha0 : 0 < a) (ha1 : a ≤ 1) :
    ∀ (xs : List V) (y w : ℚ), 0 ≤ w → lo ≤ y → y ≤ hi →
      (∀ v ∈ xs, ∀ q : ℚ, v = some q → lo ≤ q ∧ q ≤ hi) →
      ∀ v ∈ ewmGo a y w xs, ∀ q : ℚ, v = some q → lo ≤ q ∧ q ≤ hi := by
  intro xs
  induction xs with
  | nil =>
    intro y w _ _ _ _ v hv
    simp [ewmGo] at hv
  | cons c xs ih =>
    intro y w hw hylo hyhi hxs v hv q hq
    cases c with
    | none =>
      rw [show ewmGo a y w (none :: xs) = some y :: ewmGo a y (w * (1 - a)) xs from rfl]
        at hv
      rcases List.mem_cons.mp hv with rfl | hv
      · obtain rfl : y = q := by simpa using hq
        exact ⟨hylo, hyhi⟩
      · exact ih y (w * (1 - a)) (mul_nonneg hw (by linarith)) hylo hyhi
          (fun u hu => hxs u (List.mem_cons_of_mem _ hu)) v hv q hq
    | some x =>
      obtain ⟨hxlo, hxhi⟩ := hxs (some x) (List.mem_cons_self _ _) x rfl
      have h1a : (0 : ℚ) ≤ 1 - a := by linarith
      have hw2 : 0 ≤ w * (1 - a) := mul_nonneg hw h1a
      have hden : 0 < w * (1 - a) + a := by linarith
      have hval : lo ≤ (w * (1 - a) * y + a * x) / (w * (1 - a) + a) ∧
          (w * (1 - a) * y + a * x) / (w * (1 - a) + a) ≤ hi := by
        constructor
        · rw [le_div_iff hden]
          nlinarith [mul_nonneg hw2 (sub_nonneg.mpr hylo), mul_nonneg ha0.le (sub_nonneg.mpr hxlo)]
        · rw [div_le_iff hden]
          nlinarith [mul_nonneg hw2 (sub_nonneg.mpr hyhi), mul_nonneg ha0.le (sub_nonneg.mpr hxhi)]
      rw [show ewmGo a y w (some x :: xs)
            = some ((w * (1 - a) * y + a * x) / (w * (1 - a) + a))
              :: ewmGo a ((w * (1 - a) * y + a * x) / (w * (1 - a) + a)) 1 xs from rfl] at hv
      rcases List.mem_cons.mp hv with rfl | hv
      · obtain rfl : (w * (1 - a) * y + a * x) / (w * (1 - a) + a) = q := by simpa using hq
        exact hval
      · exact ih ((w * (1 - a) * y + a * x) / (w * (1 - a) + a)) 1 (by norm_num)
          hval.1 hval.2 (fun u hu => hxs u (List.mem_cons_of_mem _ hu)) v hv q hq

theorem EMAV_bound (lo hi : ℚ) (N : ℕ) (hN : 1 ≤ N) :
    ∀ (S : List V), (∀ v ∈ S, ∀ q : ℚ, v = some q → lo ≤ q ∧ q ≤ hi) →
      ∀ v ∈ EMAV S N, ∀ q : ℚ, v = some q → lo ≤ q ∧ q ≤ hi := by
  have ha0 : (0 : ℚ) < 2 / ((N : ℚ) + 1) := by positivity
  have ha1 : 2 / ((N : ℚ) + 1) ≤ 1 := by
    rw [div_le_one (by positivity)]
    have : (1 : ℚ) ≤ (N : ℚ) := by exact_mod_cast hN
    linarith
  intro S
  induction S with
  | nil =>
    intro _ v hv
    simp [EMAV] at hv
  | cons c xs ih =>
    intro hS v hv q hq
    cases c with
    | none =>
      rw [show EMAV (none :: xs) N = none :: EMAV xs N from rfl] at hv
      rcases List.mem_cons.mp hv with rfl | hv
      · simp at hq
      · exact ih (fun u hu => hS u (List.mem_cons_of_mem _ hu)) v hv q hq
    | some x =>
      obtain ⟨hxlo, hxhi⟩ := hS (some x) (List.mem_cons_self _ _) x rfl
      rw [show EMAV (some x :: xs) N = some x :: ewmGo (2 / ((N : ℚ) + 1)) x 1 xs from rfl]
        at hv
      rcases List.mem_cons.mp hv with rfl | hv
      · obtain rfl : x = q := by simpa using hq
        exact ⟨hxlo, hxhi⟩
      · exact ewmGo_bound (2 / ((N : ℚ) + 1)) lo hi ha0 ha1 xs x 1 (by norm_num)
          hxlo hxhi (fun u hu => hS u (List.mem_cons_of_mem _ hu)) v hv q hq

/-- RSV local of KDJ, src/MyTT.py line 93:
(CLOSE − LLV(LOW, N)) / (HHV(HIGH, N) − LLV(LOW, N)) · 100. -/
def kdjRSV (C H L : List V) (N : ℕ) : List V :=
  (List.zipWith vdiv (List.zipWith vsub C (LLV L N))
      (List.zipWith vsub (HHV H N) (LLV L N))).map (fun x => vmul x (some 100))

/-- KDJ from src/MyTT.py lines 92-95: K = EMA(RSV, 2·M1−1),
D = EMA(K, 2·M2−1), J = 3·K − 2·D; the triple is returned unrounded. -/
def KDJ (C H L : List V) (N M1 M2 : ℕ) : List V × List V × List V :=
  (EMAV (kdjRSV C H L N) (M1 * 2 - 1),
   EMAV (EMAV (kdjRSV C H L N) (M1 * 2 - 1)) (M2 * 2 - 1),
   List.zipWith vsub
     ((EMAV (kdjRSV C H L N) (M1 * 2 - 1)).map (fun x => vmul x (some 3)))
     ((EMAV (EMAV (kdjRSV C H L N) (M1 * 2 - 1)) (M2 * 2 - 1)).map
       (fun x => vmul x (some 2))))

/-- One Williams column of src/MyTT.py lines 268-271:
(HHV(HIGH, N) − CLOSE) / (HHV(HIGH, N) − LLV(LOW, N)) · 100, rounded. -/
def WRc (C H L : List V) (N : ℕ) : List V :=
  ((List.zipWith vdiv (List.zipWith vsub (HHV H N) C)
      (List.zipWith vsub (HHV H N) (LLV L N))).map
    (fun x => vmul x (some 100))).map vrd

/-- WR from src/MyTT.py lines 268-271: the two Williams columns. -/
def WR (C H L : List V) (N N1 : ℕ) : List V × List V :=
  (WRc C H L N, WRc C H L N1)

theorem zipWith_forall₂_mem {R : V → V → Prop} (g : V → V → V) :
    ∀ {l l' : List V}, List.Forall₂ R l l' →
      ∀ v ∈ List.zipWith g l l', ∃ a b, R a b ∧ v = g a b := by
  intro l l' h
  induction h with
  | nil => intro v hv; simp at hv
  | cons hd tl ih =>
    intro v hv
    rw [List.zipWith_cons_cons] at hv
    rcases List.mem_cons.mp hv with rfl | hv
    · exact ⟨_, _, hd, rfl⟩
    · exact ih v hv

theorem vdiv_bound {u w : V} (h : VleNN u w) :
    ∀ r : ℚ, vdiv u w = some r → 0 ≤ r ∧ r ≤ 1 := by
  intro r hr
  cases u with
  | none => simp [vdiv] at hr
  | some a =>
    cases w with
    | none => simp [vdiv] at hr
    | some b =>
      obtain ⟨ha, hab⟩ := h
      by_cases hb : b = 0
      · simp [vdiv, hb] at hr
      · rw [show vdiv (some a) (some b) = if b = 0 then none else some (a / b) from rfl,
          if_neg hb] at hr
        obtain rfl : a / b = r := by injection hr
        have hb0 : 0 < b := lt_of_le_of_ne (le_trans ha hab) (Ne.symm hb)
        exact ⟨div_nonneg ha hb0.le, (div_le_one hb0).mpr hab⟩

theorem rd3_range_0_100 {q : ℚ} (h0 : 0 ≤ q) (h1 : q ≤ 100) :
    0 ≤ rd3 q ∧ rd3 q ≤ 100 :=
  rd3_range h0 h1 ⟨0, by norm_num⟩ ⟨100000, by norm_num⟩

/-- C9 part 1: every defined RSI value lies in [0, 100], because the SMA of
the clipped gains is dominated by the SMA of the absolute moves. -/
theorem RSI_bound (C : List V) (N : ℕ) (hN : 1 ≤ N) :
    ∀ v ∈ RSI C N, ∀ q : ℚ, v = some q → 0 ≤ q ∧ q ≤ 100 := by
  have hD := forall₂_vmax0_vabs (rsiDIF C)
  have hSMA := VleNN_SMA hD N 1 (by exact_mod_cast hN)
  intro v hv q hq
  rw [RSI] at hv
  obtain ⟨u2, hu2, rfl⟩ := List.mem_map.mp hv
  obtain ⟨u1, hu1, rfl⟩ := List.mem_map.mp hu2
  obtain ⟨a, b, hab, rfl⟩ := zipWith_forall₂_mem vdiv hSMA u1 hu1
  cases hd : vdiv a b with
  | none => rw [hd] at hq; simp [vmul, vrd] at hq
  | some r =>
    rw [hd] at hq
    obtain ⟨h0r, h1r⟩ := vdiv_bound hab r hd
    have : vrd (vmul (some r) (some 100)) = some (rd3 (r * 100)) := rfl
    rw [this] at hq
    obtain rfl : rd3 (r * 100) = q := by injection hq
    exact rd3_range_0_100 (by linarith) (by linarith)

theorem winAgg_get?_some_clean (f : List ℚ → ℚ) (T : List ℚ) (N i : ℕ) {x : ℚ}
    (h : (winAgg f (T.map some) N).get? i = some (some x)) :
    i < T.length ∧ N ≤ i + 1 ∧ x = f ((T.drop (i + 1 - N)).take N) := by
  have hi : i < T.length := by
    by_contra hc
    rw [List.get?_len_le (by rw [winAgg_length, List.length_map]; omega)] at h
    cases h
  by_cases hN : N ≤ i + 1
  · rw [winAgg_get?_clean f T N i hi hN] at h
    injection h with h1
    injection h1 with h2
    exact ⟨hi, hN, h2.symm⟩
  · rw [winAgg_get?_warmup f (T.map some) N i (by simpa using hi) (by omega)] at h
    injection h with h1
    cases h1

theorem zipWith_get?_some {g : V → V → V} {l l' : List V} {i : ℕ} {u : V}
    (h : (List.zipWith g l l').get? i = some u) :
    ∃ x y, l.get? i = some x ∧ l'.get? i = some y ∧ u = g x y := by
  rw [List.get?_zipWith'] at h
  cases hx : l.get? i with
  | none => rw [hx] at h; simp at h
  | some x =>
    cases hy : l'.get? i with
    | none => rw [hx, hy] at h; simp at h
    | some y =>
      rw [hx, hy] at h
      simp only [Option.map_some', Option.some_bind] at h
      injection h with h1
      exact ⟨x, y, rfl, rfl, h1.symm⟩

theorem vsub_some {x y : V} {r : ℚ} (h : vsub x y = some r) :
    ∃ a b, x = some a ∧ y = some b ∧ r = a - b := by
  cases x with
  | none => simp [vsub] at h
  | some a =>
    cases y with
    | none => simp [vsub] at h
    | some b =>
      injection h with h1
      exact ⟨a, b, rfl, rfl, h1.symm⟩

theorem vdiv_some_args {x y : V} {r : ℚ} (h : vdiv x y = some r) :
    ∃ a b, x = some a ∧ y = some b := by
  cases x with
  | none => simp [vdiv] at h
  | some a =>
    cases y with
    | none => simp [vdiv] at h
    | some b => exact ⟨a, b, rfl, rfl⟩

theorem get?_eq_some_getD {T : List ℚ} {i : ℕ} (hi : i < T.length) :
    T.get? i = some (T.getD i 0) := by
  rw [List.getD_eq_getElem T 0 hi, List.get?_eq_getElem?, List.getElem?_eq_getElem hi]

theorem get?_map_some {T : List ℚ} {i : ℕ} {c : V}
    (h : (T.map some).get? i = some c) :
    i < T.length ∧ c = some (T.getD i 0) := by
  have hi : i < T.length := by
    by_contra hc
    rw [List.get?_len_le (by simpa using not_lt.mp hc)] at h
    cases h
  rw [List.get?_map, get?_eq_some_getD hi] at h
  injection h with h1
  exact ⟨hi, h1.symm⟩

/-- At any index where HHV of the highs and LLV of the lows are both
defined, a well-formed close lies between them. -/
theorem hhv_llv_facts (Tc Th Tl : List ℚ)
    (hwf : ∀ j, j < Tc.length → Tl.getD j 0 ≤ Tc.getD j 0 ∧ Tc.getD j 0 ≤ Th.getD j 0)
    (hlh : Th.length = Tc.length) (hll : Tl.length = Tc.length)
    (N : ℕ) (hN : 1 ≤ N) (i : ℕ) {lv hv : ℚ}
    (hL : (LLV (Tl.map some) N).get? i = some (some lv))
    (hH : (HHV (Th.map some) N).get? i = some (some hv)) :
    lv ≤ Tc.getD i 0 ∧ Tc.getD i 0 ≤ hv := by
  rw [LLV] at hL
  rw [HHV] at hH
  obtain ⟨hiL, hNL, hlveq⟩ := winAgg_get?_some_clean minL Tl N i hL
  obtain ⟨hiH, hNH, hhveq⟩ := winAgg_get?_some_clean maxL Th N i hH
  have hic : i < Tc.length := by omega
  have h1 : lv ≤ Tl.getD i 0 := by
    rw [hlveq]
    exact minL_le (getD_mem_window Tl N i hiL hNL hN)
  have h2 : Th.getD i 0 ≤ hv := by
    rw [hhveq]
    exact le_maxL (getD_mem_window Th N i hiH hNH hN)
  obtain ⟨hw1, hw2⟩ := hwf i hic
  exact ⟨le_trans h1 hw1, le_trans hw2 h2⟩

/-- C9 part 2: every defined RSV value lies in [0, 100] for well-formed
input, since close is trapped between the window extremes of low and
high. -/
theorem kdjRSV_bound (Tc Th Tl : List ℚ)
    (hwf : ∀ j, j < Tc.length → Tl.getD j 0 ≤ Tc.getD j 0 ∧ Tc.getD j 0 ≤ Th.getD j 0)
    (hlh : Th.length = Tc.length) (hll : Tl.length = Tc.length)
    (N : ℕ) (hN : 1 ≤ N) :
    ∀ v ∈ kdjRSV (Tc.map some) (Th.map some) (Tl.map some) N,
      ∀ q : ℚ, v = some q → 0 ≤ q ∧ q ≤ 100 := by
  intro v hv q hq
  rw [kdjRSV] at hv
  obtain ⟨u, hu, rfl⟩ := List.mem_map.mp hv
  obtain ⟨i, hi⟩ := List.mem_iff_get?.mp hu
  obtain ⟨a, b, hA, hB, rfl⟩ := zipWith_get?_some hi
  cases hd : vdiv a b with
  | none => rw [hd] at hq; simp [vmul] at hq
  | some r =>
    rw [hd] at hq
    obtain rfl : r * 100 = q := by injection hq
    obtain ⟨na, nb, ha, hb⟩ := vdiv_some_args hd
    subst ha hb
    obtain ⟨c0, l0, hc0, hl0, hsubA⟩ := zipWith_get?_some hA
    obtain ⟨c, lv, hc', hl', hna⟩ := vsub_some hsubA.symm
    subst hc' hl'
    obtain ⟨h0, l0b, hh0, hl0b, hsubB⟩ := zipWith_get?_some hB
    obtain ⟨hv2, lv2, hh', hl2', hnb⟩ := vsub_some hsubB.symm
    subst hh' hl2'
    rw [hl0] at hl0b
    injection hl0b with hlvv
    injection hlvv with hlv2
    subst hlv2
    obtain ⟨hicl, hceq⟩ := get?_map_some hc0
    injection hceq with hceq'
    obtain ⟨hlo, hhi⟩ := hhv_llv_facts Tc Th Tl hwf hlh hll N hN i hl0 hh0
    rw [← hceq'] at hlo hhi
    have hrel : VleNN (some na) (some nb) := by
      refine ⟨by rw [hna]; linarith, ?_⟩
      rw [hna, hnb]
      linarith
    obtain ⟨h0r, h1r⟩ := vdiv_bound hrel r hd
    constructor <;> linarith

/-- C9 part 3: every defined Williams value lies in [0, 100] for
well-formed input. -/
theorem WRc_bound (Tc Th Tl : List ℚ)
    (hwf : ∀ j, j < Tc.length → Tl.getD j 0 ≤ Tc.getD j 0 ∧ Tc.getD j 0 ≤ Th.getD j 0)
    (hlh : Th.length = Tc.length) (hll : Tl.length = Tc.length)
    (N : ℕ) (hN : 1 ≤ N) :
    ∀ v ∈ WRc (Tc.map some) (Th.map some) (Tl.map some) N,
      ∀ q : ℚ, v = some q → 0 ≤ q ∧ q ≤ 100 := by
  intro v hv q hq
  rw [WRc] at hv
  obtain ⟨u2, hu2, rfl⟩ := List.mem_map.mp hv
  obtain ⟨u, hu, rfl⟩ := List.mem_map.mp hu2
  obtain ⟨i, hi⟩ := List.mem_iff_get?.mp hu
  obtain ⟨a, b, hA, hB, rfl⟩ := zipWith_get?_some hi
  cases hd : vdiv a b with
  | none => rw [hd] at hq; simp [vmul, vrd] at hq
  | some r =>
    rw [hd] at hq
    obtain rfl : rd3 (r * 100) = q := by injection hq
    obtain ⟨na, nb, ha, hb⟩ := vdiv_some_args hd
    subst ha hb
    obtain ⟨h0A, c0, hh0A, hc0, hsubA⟩ := zipWith_get?_some hA
    obtain ⟨hvA, c, hh', hc', hna⟩ := vsub_some hsubA.symm
    subst hh' hc'
    obtain ⟨h0B, l0, hh0B, hl0, hsubB⟩ := zipWith_get?_some hB
    obtain ⟨hvB, lv, hhB', hlB', hnb⟩ := vsub_some hsubB.symm
    subst hhB' hlB'
    rw [hh0A] at hh0B
    injection hh0B with hvv
    injection hvv with hvv'
    subst hvv'
    obtain ⟨hicl, hceq⟩ := get?_map_some hc0
    injection hceq with hceq'
    obtain ⟨hlo, hhi⟩ := hhv_llv_facts Tc Th Tl hwf hlh hll N hN i hl0 hh0A
    rw [← hceq'] at hlo hhi
    have hrel : VleNN (some na) (some nb) := by
      refine ⟨by rw [hna]; linarith, ?_⟩
      rw [hna, hnb]
      linarith
    obtain ⟨h0r, h1r⟩ := vdiv_bound hrel r hd
    exact rd3_range_0_100 (by linarith) (by linarith)

/-- C9: on well-formed OHLC input (per-bar low ≤ close ≤ high, no NaN
prices) every defined (non-NaN) output value of RSI, K, D, and both
Williams columns lies within 0 and 100; J = 3K − 2D is intentionally not
claimed bounded, as it can leave the band on spikes. -/
theorem C9_bounded_oscillators (Tc Th Tl : List ℚ)
    (hlh : Th.length = Tc.length) (hll : Tl.length = Tc.length)
    (hwf : ∀ j, j < Tc.length → Tl.getD j 0 ≤ Tc.getD j 0 ∧ Tc.getD j 0 ≤ Th.getD j 0)
    (Nr Nk M1 M2 Nw N1w : ℕ) (hNr : 1 ≤ Nr) (hNk : 1 ≤ Nk)
    (hM1 : 1 ≤ M1) (hM2 : 1 ≤ M2) (hNw : 1 ≤ Nw) (hN1w : 1 ≤ N1w) :
    (∀ v ∈ RSI (Tc.map some) Nr, ∀ q : ℚ, v = some q → 0 ≤ q ∧ q ≤ 100) ∧
    (∀ v ∈ (KDJ (Tc.map some) (Th.map some) (Tl.map some) Nk M1 M2).1,
      ∀ q : ℚ, v = some q → 0 ≤ q ∧ q ≤ 100) ∧
    (∀ v ∈ (KDJ (Tc.map some) (Th.map some) (Tl.map some) Nk M1 M2).2.1,
      ∀ q : ℚ, v = some q → 0 ≤ q ∧ q ≤ 100) ∧
    (∀ v ∈ (WR (Tc.map some) (Th.map some) (Tl.map some) Nw N1w).1,
      ∀ q : ℚ, v = some q → 0 ≤ q ∧ q ≤ 100) ∧
    (∀ v ∈ (WR (Tc.map some) (Th.map some) (Tl.map some) Nw N1w).2,
      ∀ q : ℚ, v = some q → 0 ≤ q ∧ q ≤ 100) := by
  have hrsv := kdjRSV_bound Tc Th Tl hwf hlh hll Nk hNk
  have hK : ∀ v ∈ EMAV (kdjRSV (Tc.map some) (Th.map some) (Tl.map some) Nk)
      (M1 * 2 - 1), ∀ q : ℚ, v = some q → 0 ≤ q ∧ q ≤ 100 :=
    EMAV_bound 0 100 (M1 * 2 - 1) (by omega) _ hrsv
  have hD : ∀ v ∈ EMAV (EMAV (kdjRSV (Tc.map some) (Th.map some) (Tl.map some) Nk)
      (M1 * 2 - 1)) (M2 * 2 - 1), ∀ q : ℚ, v = some q → 0 ≤ q ∧ q ≤ 100 :=
    EMAV_bound 0 100 (M2 * 2 - 1) (by omega) _ hK
  exact ⟨RSI_bound (Tc.map some) Nr hNr, hK, hD,
    WRc_bound Tc Th Tl hwf hlh hll Nw hNw,
    WRc_bound Tc Th Tl hwf hlh hll N1w hN1w⟩

/-- Witness for the C9 theorem at close = [1, 2], high = [2, 3],
low = [0, 1], all window parameters 1. -/
theorem C9_bounded_oscillators_witness :
    (∀ v ∈ RSI ([(1 : ℚ), 2].map some) 1, ∀ q : ℚ, v = some q → 0 ≤ q ∧ q ≤ 100) ∧
    (∀ v ∈ (KDJ ([(1 : ℚ), 2].map some) ([(2 : ℚ), 3].map some)
        ([(0 : ℚ), 1].map some) 1 1 1).1,
      ∀ q : ℚ, v = some q → 0 ≤ q ∧ q ≤ 100) ∧
    (∀ v ∈ (KDJ ([(1 : ℚ), 2].map some) ([(2 : ℚ), 3].map some)
        ([(0 : ℚ), 1].map some) 1 1 1).2.1,
      ∀ q : ℚ, v = some q → 0 ≤ q ∧ q ≤ 100) ∧
    (∀ v ∈ (WR ([(1 : ℚ), 2].map some) ([(2 : ℚ), 3].map some)
        ([(0 : ℚ), 1].map some) 1 1).1,
      ∀ q : ℚ, v = some q → 0 ≤ q ∧ q ≤ 100) ∧
    (∀ v ∈ (WR ([(1 : ℚ), 2].map some) ([(2 : ℚ), 3].map some)
        ([(0 : ℚ), 1].map some) 1 1).2,
      ∀ q : ℚ, v = some q → 0 ≤ q ∧ q ≤ 100) :=
  C9_bounded_oscillators [1, 2] [2, 3] [0, 1] rfl rfl
    (by
      intro j hj
      have hj2 : j < 2 := by simpa using hj
      interval_cases j <;> norm_num)
    1 1 1 1 1 1 le_rfl le_rfl le_rfl le_rfl le_rfl le_rfl

end MyTT
